import Mathlib

/-!
Verification development for the `shodh` fuzzy path finder
(source: `src/shodh.rs`).

The core pipeline is embedded shallowly:
* `fuzzy_score` — Smith–Waterman local alignment with exact/prefix boosts
  (`fuzzy_score` in the source, lines 232–271).  Strings are modelled as
  `List Char`; the DP array `dp` is modelled by the recursive function
  `cell`, and the running maximum `max_score` of the two nested loops by
  `max_score` (a fold over the loop ranges in loop order).
* `filter_and_score` — type filtering, case folding, scoring and the
  positivity filter (source lines 209–229).  A `Candidate` carries the
  filesystem facts the code queries (`file_name`, `is_file`, `is_dir`)
  as immutable fields; the path identifier is modelled as `List Char`
  ordered lexicographically (the comparator of `impl Ord for ScoredPath`,
  source lines 107–116, compares paths; for the names and examples in
  the specification this coincides with lexicographic order).
* `rank` — the `BinaryHeap` / `into_sorted_vec().rev().take(k)` ranking of
  `main` (source lines 170–184), modelled as sorting by the total order
  `rankLE` (score descending, path ascending on ties — the order in which
  `main` pops elements) followed by `take k`.
-/

/-- `match_score` constant from `fuzzy_score` (source line 241). -/
def match_score : Int := 2

/-- `mismatch_penalty` constant from `fuzzy_score` (source line 242). -/
def mismatch_penalty : Int := -1

/-- `gap_penalty` constant from `fuzzy_score` (source line 243). -/
def gap_penalty : Int := -2

/-- Row `i+1` of the DP table of `fuzzy_score`, given row `i` as the
function `prev`: `cellAux q c prev i j` is `dp[i+1][j]`.  Column 0 stays
at its initial value 0; an interior cell is
`max (max (max 0 score_diag) score_up) score_left`, exactly as assigned
in the loop body (source lines 247–257).  Character `q[i]` of the source
is `q.getD i d` here; for the cells the loops actually visit
(`i < |q|`, `j ≤ |c|`) the index is in range and the default is never
consulted. -/
def cellAux (q c : List Char) (prev : Nat → Int) (i : Nat) : Nat → Int
  | 0 => 0
  | j + 1 =>
    let score_diag :=
      if q.getD i ' ' = c.getD j ' ' then prev j + match_score
      else prev j + mismatch_penalty
    let score_up := prev (j + 1) + gap_penalty
    let score_left := cellAux q c prev i j + gap_penalty
    max (max (max 0 score_diag) score_up) score_left

/-- The DP table of `fuzzy_score` (source lines 245–257): `cell q c i j`
is the value stored in `dp[i][j]`.  Row 0 is fixed at 0; row `i+1` is
computed from row `i` by `cellAux`. -/
def cell (q c : List Char) : Nat → Nat → Int
  | 0, _ => 0
  | i + 1, j => cellAux q c (cell q c i) i j

/-- The running maximum `max_score` after both loops of `fuzzy_score`
(source lines 246–261): starting from 0, fold over `i = 1..=m` (outer)
and `j = 1..=n` (inner) taking the max with `dp[i][j]`. -/
def max_score (q c : List Char) : Int :=
  (List.range q.length).foldl
    (fun acc i =>
      (List.range c.length).foldl (fun acc2 j => max acc2 (cell q c (i + 1) (j + 1))) acc)
    0

/-- `fuzzy_score` (source lines 232–271): 0 if either side is empty,
otherwise the table maximum, plus 10000 when `query == candidate`, plus
5000 when `candidate.starts_with(query) && query != candidate`.  The two
boost `if`s are sequential additions, exactly as in the source. -/
def fuzzy_score (query candidate : List Char) : Int :=
  if query.length = 0 ∨ candidate.length = 0 then 0
  else
    let s := max_score query candidate
    let s := if query = candidate then s + 10000 else s
    let s := if query.isPrefixOf candidate ∧ query ≠ candidate then s + 5000 else s
    s

/-- `CaseSensitivity` (source lines 9–13). -/
inductive CaseSensitivity
  | Sensitive
  | Insensitive
deriving DecidableEq

/-- The fields of `Config` (source lines 15–26) consumed by the scoring
and ranking pipeline.  `root`, `help` and `version` only steer I/O in
`main` and are omitted. -/
structure Config where
  query : List Char
  num : Nat
  files_only : Bool
  dirs_only : Bool
  case : CaseSensitivity
  parallel : Bool
deriving DecidableEq

/-- One candidate path as the pipeline sees it: the path identifier
(modelled as its text, ordered lexicographically), together with the
facts the code obtains from it — `path.file_name()?.to_str()?` (`none`
when either step fails, source line 210) and the filesystem answers to
`path.is_file()` / `path.is_dir()` (source lines 212, 215; mutually
exclusive for any real filesystem object, both false when the path no
longer exists). -/
structure Candidate where
  path : List Char
  name : Option (List Char)
  isFile : Bool
  isDir : Bool
deriving DecidableEq

/-- `ScoredPath` (source lines 100–104). -/
@[ext]
structure ScoredPath where
  score : Int
  path : List Char
deriving DecidableEq

/-- `str::to_lowercase` as used on query and name (source line 220),
modelled characterwise. -/
def to_lowercase (s : List Char) : List Char :=
  s.map Char.toLower

/-- `filter_and_score` (source lines 209–229): name extraction, type
filtering, case folding, scoring, and the `score > 0` filter, in source
order. -/
def filter_and_score (cand : Candidate) (config : Config) : Option ScoredPath :=
  match cand.name with
  | none => none
  | some name =>
    if config.files_only && !cand.isFile then none
    else if config.dirs_only && !cand.isDir then none
    else
      let qc : List Char × List Char :=
        match config.case with
        | CaseSensitivity.Insensitive => (to_lowercase config.query, to_lowercase name)
        | CaseSensitivity.Sensitive => (config.query, name)
      let score := fuzzy_score qc.1 qc.2
      if score > 0 then some (ScoredPath.mk score cand.path) else none

/-- The order in which `main` emits `ScoredPath`s (source lines
107–116 and 176): `rankLE a b` holds when `a` comes no later than `b`,
i.e. when `a` is `Ord`-greater-or-equal to `b` under
`self.score.cmp(&other.score).then_with(|| other.path.cmp(&self.path))`:
higher score first, and among equal scores the lexicographically
smaller path first. -/
def rankLE (a b : ScoredPath) : Prop :=
  b.score < a.score ∨ (a.score = b.score ∧ a.path ≤ b.path)

instance rankLE.decidableRel : DecidableRel rankLE :=
  fun a b =>
    inferInstanceAs (Decidable (b.score < a.score ∨ (a.score = b.score ∧ a.path ≤ b.path)))

instance rankLE.isTrans : IsTrans ScoredPath rankLE := by
  constructor
  intro a b c hab hbc
  simp only [rankLE] at hab hbc ⊢
  rcases hab with h | ⟨he, hp⟩ <;> rcases hbc with h2 | ⟨he2, hp2⟩
  · exact Or.inl (by omega)
  · exact Or.inl (by omega)
  · exact Or.inl (by omega)
  · exact Or.inr ⟨by omega, le_trans hp hp2⟩

instance rankLE.isTotal : IsTotal ScoredPath rankLE := by
  constructor
  intro a b
  simp only [rankLE]
  rcases lt_trichotomy a.score b.score with h | h | h
  · exact Or.inr (Or.inl h)
  · rcases le_total a.path b.path with hp | hp
    · exact Or.inl (Or.inr ⟨h, hp⟩)
    · exact Or.inr (Or.inr ⟨h.symm, hp⟩)
  · exact Or.inl (Or.inl h)

instance rankLE.isAntisymm : IsAntisymm ScoredPath rankLE := by
  constructor
  intro a b hab hba
  simp only [rankLE] at hab hba
  have hs : a.score = b.score := by
    rcases hab with h | ⟨h, _⟩ <;> rcases hba with h2 | ⟨h2, _⟩ <;> omega
  have hp1 : a.path ≤ b.path := by
    rcases hab with h | ⟨_, h⟩
    · exact absurd h (by omega)
    · exact h
  have hp2 : b.path ≤ a.path := by
    rcases hba with h | ⟨_, h⟩
    · exact absurd h (by omega)
    · exact h
  exact ScoredPath.ext hs (le_antisymm hp1 hp2)

/-- The ranking done by `main` (source lines 170–176): all scored paths
are pushed into a `BinaryHeap`, drained into ascending `Ord` order,
reversed, and truncated to `config.num`.  The reversed sorted vector is
the (unique, since distinct model values are never `Ord`-equivalent)
permutation of the input sorted by `rankLE`; it is modelled by
`List.insertionSort`. -/
def rank (scored : List ScoredPath) (k : Nat) : List ScoredPath :=
  (List.insertionSort rankLE scored).take k

/-- The scoring-plus-ranking pipeline of `main` (source lines 161–176).
The parallel branch models `par_iter().filter_map(..).collect()`, which
collects in input order just like the sequential branch. -/
def score_and_rank (candidates : List Candidate) (config : Config) : List ScoredPath :=
  let scored :=
    if config.parallel then candidates.filterMap (fun p => filter_and_score p config)
    else candidates.filterMap (fun p => filter_and_score p config)
  rank scored config.num

/-- Specification-side reading of the table maximum: the maximum value
anywhere in the `(|q|+1) × (|c|+1)` DP table, boundary included (taking
the maximum over the whole table also realises the clamp at 0, since
the boundary entries are 0). -/
def table_max_spec (q c : List Char) : Int :=
  (Finset.range (q.length + 1) ×ˢ Finset.range (c.length + 1)).sup'
    ⟨(0, 0), by simp⟩ (fun p => cell q c p.1 p.2)

theorem cell_zero_left (q c : List Char) (j : Nat) : cell q c 0 j = 0 := rfl

theorem cell_zero_right (q c : List Char) (i : Nat) : cell q c i 0 = 0 := by
  cases i <;> rfl

theorem cell_succ_succ (q c : List Char) (i j : Nat) :
    cell q c (i + 1) (j + 1) =
      max (max (max 0
            (if q.getD i ' ' = c.getD j ' ' then cell q c i j + match_score
             else cell q c i j + mismatch_penalty))
          (cell q c i (j + 1) + gap_penalty))
        (cell q c (i + 1) j + gap_penalty) := rfl

theorem cell_nonneg (q c : List Char) (i j : Nat) : 0 ≤ cell q c i j := by
  match i, j with
  | 0, j => simp [cell_zero_left]
  | i + 1, 0 => simp [cell_zero_right]
  | i + 1, j + 1 =>
    rw [cell_succ_succ]
    exact le_max_of_le_left (le_max_of_le_left (le_max_left 0 _))

theorem foldl_init_le {α : Type} (g : Int → α → Int) (hg : ∀ a b, a ≤ g a b) :
    ∀ (l : List α) (a : Int), a ≤ l.foldl g a
  | [], a => le_refl a
  | b :: l, a => le_trans (hg a b) (foldl_init_le g hg l (g a b))

theorem foldl_le_of_mem {α : Type} (g : Int → α → Int) (hg : ∀ a b, a ≤ g a b)
    (v : Int) (i : α) (hv : ∀ a, v ≤ g a i) :
    ∀ (l : List α), i ∈ l → ∀ a, v ≤ l.foldl g a := by
  intro l
  induction l with
  | nil => intro h; exact absurd h (List.not_mem_nil i)
  | cons b l ih =>
    intro hmem a
    rcases List.mem_cons.mp hmem with h | h
    · subst h
      exact le_trans (hv a) (foldl_init_le g hg l (g a i))
    · exact ih h (g a b)

theorem foldl_eq_init_or {α : Type} (g : Int → α → Int) (P : Int → Prop) :
    ∀ (l : List α), (∀ a, ∀ b ∈ l, g a b = a ∨ P (g a b)) →
      ∀ a, l.foldl g a = a ∨ P (l.foldl g a) := by
  intro l
  induction l with
  | nil => intro _ a; exact Or.inl rfl
  | cons b l ih =>
    intro hstep a
    have hrest : ∀ a, ∀ x ∈ l, g a x = a ∨ P (g a x) := fun a x hx =>
      hstep a x (List.mem_cons_of_mem b hx)
    rcases ih hrest (g a b) with h | h
    · rcases hstep a b (List.mem_cons_self b l) with h2 | h2
      · exact Or.inl (by simpa [List.foldl_cons, h] using h2)
      · exact Or.inr (by simpa [List.foldl_cons, h] using h2)
    · exact Or.inr (by simpa [List.foldl_cons] using h)

theorem max_score_nonneg (q c : List Char) : 0 ≤ max_score q c := by
  unfold max_score
  exact foldl_init_le _
    (fun a i => foldl_init_le _ (fun a2 j => le_max_left a2 _) _ a) _ 0

theorem cell_le_max_score (q c : List Char) {i j : Nat}
    (hi : i < q.length) (hj : j < c.length) :
    cell q c (i + 1) (j + 1) ≤ max_score q c := by
  unfold max_score
  refine foldl_le_of_mem _ ?_ _ i ?_ _ (List.mem_range.mpr hi) 0
  · intro a b
    exact foldl_init_le _ (fun a2 j2 => le_max_left a2 _) _ a
  · intro a
    refine foldl_le_of_mem _ ?_ _ j ?_ _ (List.mem_range.mpr hj) a
    · intro a2 j2
      exact le_max_left a2 _
    · intro a2
      exact le_max_right a2 _

theorem cell_le_two_min (q c : List Char) : ∀ i j, cell q c i j ≤ 2 * ((min i j : Nat) : Int) := by
  intro i
  induction i with
  | zero => intro j; simp [cell_zero_left]
  | succ i ih =>
    intro j
    induction j with
    | zero => simp [cell_zero_right]
    | succ j ihj =>
      rw [cell_succ_succ]
      have h1 := ih j
      have h2 := ih (j + 1)
      have h3 := ihj
      simp only [match_score, mismatch_penalty, gap_penalty] at *
      split <;> omega

theorem two_mul_le_cell_diag (q : List Char) : ∀ i : Nat, 2 * (i : Int) ≤ cell q q i i := by
  intro i
  induction i with
  | zero => simp [cell_zero_left]
  | succ i ih =>
    rw [cell_succ_succ, if_pos rfl]
    simp only [match_score]
    push_cast
    omega

theorem max_score_cases (q c : List Char) :
    max_score q c = 0 ∨
      ∃ i < q.length, ∃ j < c.length, max_score q c = cell q c (i + 1) (j + 1) := by
  unfold max_score
  refine foldl_eq_init_or _
    (fun v => ∃ i < q.length, ∃ j < c.length, v = cell q c (i + 1) (j + 1)) _ ?_ 0
  intro a i hi
  show (List.range c.length).foldl
      (fun acc2 j => max acc2 (cell q c (i + 1) (j + 1))) a = a ∨ _
  refine foldl_eq_init_or _
    (fun v => ∃ i2 < q.length, ∃ j2 < c.length, v = cell q c (i2 + 1) (j2 + 1)) _ ?_ a
  intro a2 j hj
  rcases max_choice a2 (cell q c (i + 1) (j + 1)) with h | h
  · exact Or.inl h
  · exact Or.inr ⟨i, List.mem_range.mp hi, j, List.mem_range.mp hj, h⟩

theorem max_score_le_two_min (q c : List Char) :
    max_score q c ≤ 2 * ((min q.length c.length : Nat) : Int) := by
  rcases max_score_cases q c with h | ⟨i, hi, j, hj, h⟩
  · rw [h]; omega
  · rw [h]
    have h1 := cell_le_two_min q c (i + 1) (j + 1)
    omega

theorem max_score_self (q : List Char) (h : q ≠ []) :
    max_score q q = 2 * (q.length : Int) := by
  have hlen : q.length ≠ 0 := by simpa using h
  obtain ⟨m, hm⟩ : ∃ m, q.length = m + 1 := ⟨q.length - 1, by omega⟩
  have hub := max_score_le_two_min q q
  have hcell := two_mul_le_cell_diag q (m + 1)
  have hle := @cell_le_max_score q q m m (by omega) (by omega)
  push_cast at hcell
  omega

theorem max_score_eq_table_max_spec (q c : List Char) :
    max_score q c = table_max_spec q c := by
  unfold table_max_spec
  apply le_antisymm
  · rcases max_score_cases q c with h | ⟨i, hi, j, hj, h⟩
    · rw [h]
      refine le_trans (le_of_eq (cell_zero_left q c 0).symm) ?_
      have hmem : ((0, 0) : Nat × Nat) ∈
          Finset.range (q.length + 1) ×ˢ Finset.range (c.length + 1) := by simp
      exact Finset.le_sup' (fun p : Nat × Nat => cell q c p.1 p.2) hmem
    · rw [h]
      have hmem : ((i + 1, j + 1) : Nat × Nat) ∈
          Finset.range (q.length + 1) ×ˢ Finset.range (c.length + 1) := by
        simp only [Finset.mem_product, Finset.mem_range]
        omega
      exact Finset.le_sup' (fun p : Nat × Nat => cell q c p.1 p.2) hmem
  · apply Finset.sup'_le
    rintro ⟨i, j⟩ hp
    simp only [Finset.mem_product, Finset.mem_range] at hp
    obtain ⟨hi, hj⟩ := hp
    match i, j, hi, hj with
    | 0, j, _, _ => simpa [cell_zero_left] using max_score_nonneg q c
    | i + 1, 0, _, _ => simpa [cell_zero_right] using max_score_nonneg q c
    | i + 1, j + 1, hi, hj => exact cell_le_max_score q c (by omega) (by omega)

theorem fuzzy_score_eq (q c : List Char) (hq : q ≠ []) (hc : c ≠ []) :
    fuzzy_score q c = max_score q c
      + (if q = c then 10000 else 0)
      + (if q.isPrefixOf c ∧ q ≠ c then 5000 else 0) := by
  have hq' : q.length ≠ 0 := by simpa using hq
  have hc' : c.length ≠ 0 := by simpa using hc
  unfold fuzzy_score
  rw [if_neg (by simp [hq', hc'])]
  by_cases h1 : q = c
  · simp [h1]
  · by_cases h2 : q.isPrefixOf c = true
    · simp only [h1, h2, if_false, if_true, ite_true, ite_false, ne_eq,
        not_false_eq_true, and_true, true_and]
      omega
    · simp [h1, h2]

theorem rank_sorted (scored : List ScoredPath) (k : Nat) :
    List.Sorted rankLE (rank scored k) := by
  unfold rank
  exact List.Pairwise.sublist (List.take_sublist k _)
    (List.sorted_insertionSort rankLE scored)

theorem rank_congr_perm {scored scored' : List ScoredPath}
    (h : scored.Perm scored') (k : Nat) : rank scored k = rank scored' k := by
  unfold rank
  congr 1
  exact List.eq_of_perm_of_sorted
    ((List.perm_insertionSort rankLE scored).trans
      (h.trans (List.perm_insertionSort rankLE scored').symm))
    (List.sorted_insertionSort rankLE scored)
    (List.sorted_insertionSort rankLE scored')

theorem filter_none_of_files_only (cand : Candidate) (config : Config)
    (hf : config.files_only = true) (hnf : cand.isFile = false) :
    filter_and_score cand config = none := by
  rcases hname : cand.name with _ | name
  · simp [filter_and_score, hname]
  · simp [filter_and_score, hname, hf, hnf]

theorem filter_none_of_dirs_only (cand : Candidate) (config : Config)
    (hd : config.dirs_only = true) (hnd : cand.isDir = false) :
    filter_and_score cand config = none := by
  rcases hname : cand.name with _ | name
  · simp [filter_and_score, hname]
  · simp [filter_and_score, hname, hd, hnd]

/-- C1: for every pair of non-empty character sequences, the aligner's
score before boosts — `max_score`, which `fuzzy_score` augments only by
the exact/prefix boosts (third conjunct) — equals the maximum value over
the Smith–Waterman DP table whose boundary row and column are fixed at 0
and whose interior cells follow `max 0 diag up left` with match 2,
mismatch -1, gap -2; and it is never negative. -/
theorem C1_score_before_boosts_is_table_max (q c : List Char)
    (hq : q ≠ []) (hc : c ≠ []) :
    max_score q c = table_max_spec q c ∧ 0 ≤ max_score q c ∧
      fuzzy_score q c = max_score q c + (if q = c then 10000 else 0)
        + (if q.isPrefixOf c ∧ q ≠ c then 5000 else 0) :=
  ⟨max_score_eq_table_max_spec q c, max_score_nonneg q c, fuzzy_score_eq q c hq hc⟩

theorem C1_witness :
    (['k'] : List Char) ≠ [] ∧ (['k', 'b'] : List Char) ≠ [] ∧
      (max_score ['k'] ['k', 'b'] = table_max_spec ['k'] ['k', 'b'] ∧
        0 ≤ max_score ['k'] ['k', 'b'] ∧
        fuzzy_score ['k'] ['k', 'b'] = max_score ['k'] ['k', 'b']
          + (if (['k'] : List Char) = ['k', 'b'] then 10000 else 0)
          + (if (['k'] : List Char).isPrefixOf ['k', 'b'] ∧ (['k'] : List Char) ≠ ['k', 'b']
             then 5000 else 0)) :=
  ⟨by decide, by decide,
    C1_score_before_boosts_is_table_max ['k'] ['k', 'b'] (by decide) (by decide)⟩

/-- C2: every ranked output is sorted by descending score with ties in
ascending path order, and concretely, of two candidates with equal score
and paths "b/x" and "a/y", the one with path "a/y" comes first. -/
theorem C2_output_order :
    (∀ (scored : List ScoredPath) (k : Nat),
        List.Pairwise
          (fun a b => b.score < a.score ∨ (a.score = b.score ∧ a.path ≤ b.path))
          (rank scored k)) ∧
      rank [ScoredPath.mk 5 ['b', '/', 'x'], ScoredPath.mk 5 ['a', '/', 'y']] 2 =
        [ScoredPath.mk 5 ['a', '/', 'y'], ScoredPath.mk 5 ['b', '/', 'x']] :=
  ⟨fun scored k => rank_sorted scored k, by decide⟩

/-- C3: ranking always returns exactly `min k |scored|` elements; in
particular `k = 0` gives `[]` and an empty input gives `[]`. -/
theorem C3_rank_length :
    ∀ (scored : List ScoredPath) (k : Nat),
      (rank scored k).length = min k scored.length ∧
        rank scored 0 = [] ∧ rank [] k = [] := by
  intro scored k
  refine ⟨?_, ?_, ?_⟩
  · unfold rank
    rw [List.length_take, (List.perm_insertionSort rankLE scored).length_eq]
  · simp [rank]
  · simp [rank]

/-- C4: `filter_and_score` only ever emits a `ScoredPath` whose score is
strictly positive. -/
theorem C4_emitted_scores_positive (cand : Candidate) (config : Config)
    (sp : ScoredPath) (h : filter_and_score cand config = some sp) :
    0 < sp.score := by
  rcases hname : cand.name with _ | name
  · simp [filter_and_score, hname] at h
  · simp only [filter_and_score, hname] at h
    split_ifs at h with h1 h2 h3
    have hsp := Option.some.inj h
    subst hsp
    simpa using h3

theorem C4_witness :
    filter_and_score (Candidate.mk ['a'] (some ['a']) true false)
        (Config.mk ['a'] 10 false false CaseSensitivity.Sensitive true) =
      some (ScoredPath.mk 10002 ['a']) ∧
      0 < (ScoredPath.mk 10002 ['a']).score :=
  ⟨by decide,
    C4_emitted_scores_positive (Candidate.mk ['a'] (some ['a']) true false)
      (Config.mk ['a'] 10 false false CaseSensitivity.Sensitive true)
      (ScoredPath.mk 10002 ['a']) (by decide)⟩

/-- C5: on non-empty inputs at most one boost applies on top of the raw
alignment score, additively: 10000 on exact equality, otherwise 5000 on
a strict prefix; exact and prefix boosts never combine. -/
theorem C5_at_most_one_boost (q c : List Char) (hq : q ≠ []) (hc : c ≠ []) :
    fuzzy_score q c = max_score q c
        + (if q = c then 10000 else if q.isPrefixOf c then 5000 else 0) ∧
      ¬(q = c ∧ (q.isPrefixOf c ∧ q ≠ c)) := by
  constructor
  · rw [fuzzy_score_eq q c hq hc]
    by_cases h1 : q = c
    · simp [h1]
    · by_cases h2 : q.isPrefixOf c = true
      · rw [if_neg h1, if_pos (And.intro h2 h1), if_neg h1, if_pos h2]
        omega
      · simp [h1, h2]
  · rintro ⟨h1, _, h2⟩
    exact h2 h1

theorem C5_witness :
    (['k'] : List Char) ≠ [] ∧ (['k', 'i'] : List Char) ≠ [] ∧
      (fuzzy_score ['k'] ['k', 'i'] = max_score ['k'] ['k', 'i']
          + (if (['k'] : List Char) = ['k', 'i'] then 10000
             else if (['k'] : List Char).isPrefixOf ['k', 'i'] then 5000 else 0) ∧
        ¬((['k'] : List Char) = ['k', 'i'] ∧
          ((['k'] : List Char).isPrefixOf ['k', 'i'] ∧ (['k'] : List Char) ≠ ['k', 'i']))) :=
  ⟨by decide, by decide, C5_at_most_one_boost ['k'] ['k', 'i'] (by decide) (by decide)⟩

/-- C6: the alignment score without boosts is at most twice the shorter
length, so a boosted (exact or prefix) match always outscores a purely
fuzzy match of any realistic length (shorter side at most 2499). -/
theorem C6_raw_bound_and_boost_dominance :
    (∀ q c : List Char, max_score q c ≤ 2 * ((min q.length c.length : Nat) : Int)) ∧
      (∀ q c1 c2 : List Char, q ≠ [] → q.isPrefixOf c2 = true →
        q.isPrefixOf c1 = false → min q.length c1.length ≤ 2499 →
        fuzzy_score q c1 < fuzzy_score q c2) := by
  refine ⟨max_score_le_two_min, ?_⟩
  intro q c1 c2 hq hpre hnot hlen
  have hne1 : q ≠ c1 := by
    rintro rfl
    have hr : q.isPrefixOf q = true := List.isPrefixOf_iff_prefix.mpr (List.prefix_refl q)
    rw [hr] at hnot
    simp at hnot
  have hc2ne : c2 ≠ [] := by
    rintro rfl
    have hp := List.isPrefixOf_iff_prefix.mp hpre
    exact hq (List.prefix_nil.mp hp)
  have hub : fuzzy_score q c1 ≤ 2 * ((min q.length c1.length : Nat) : Int) := by
    by_cases hc1 : c1 = []
    · subst hc1
      unfold fuzzy_score
      rw [if_pos (by simp)]
      omega
    · rw [fuzzy_score_eq q c1 hq hc1, if_neg hne1, if_neg (by simp [hnot])]
      simpa using max_score_le_two_min q c1
  have hlb : (5000 : Int) ≤ fuzzy_score q c2 := by
    rw [fuzzy_score_eq q c2 hq hc2ne]
    have h0 := max_score_nonneg q c2
    by_cases he : q = c2
    · rw [if_pos he, if_neg (by simp [he])]
      omega
    · rw [if_neg he, if_pos ⟨hpre, he⟩]
      omega
  omega

theorem C6_witness :
    fuzzy_score ['a'] ['z'] < fuzzy_score ['a'] ['a', 'b'] :=
  C6_raw_bound_and_boost_dominance.2 ['a'] ['z'] ['a', 'b']
    (by decide) (by decide) (by decide) (by decide)

/-- C7: an empty query or an empty candidate name scores exactly 0 and
receives no boost, even though the empty string is a prefix of every
candidate. -/
theorem C7_empty_guard :
    ∀ q c : List Char,
      fuzzy_score [] c = 0 ∧ fuzzy_score q [] = 0 ∧
        ([] : List Char).isPrefixOf c = true := by
  intro q c
  refine ⟨?_, ?_, ?_⟩
  · simp [fuzzy_score]
  · simp [fuzzy_score]
  · cases c <;> rfl

/-- C8: with the files-only filter a non-file is discarded, with the
dirs-only filter a non-directory is discarded, and with both filters set
nothing is ever emitted (is-file and is-dir being mutually exclusive
filesystem facts). -/
theorem C8_type_filters (cand : Candidate) (config : Config) :
    (config.files_only = true → cand.isFile = false →
        filter_and_score cand config = none) ∧
      (config.dirs_only = true → cand.isDir = false →
        filter_and_score cand config = none) ∧
      (config.files_only = true → config.dirs_only = true →
        ¬(cand.isFile = true ∧ cand.isDir = true) →
        filter_and_score cand config = none) := by
  refine ⟨filter_none_of_files_only cand config,
    filter_none_of_dirs_only cand config, ?_⟩
  intro hf hd hx
  cases hif : cand.isFile
  · exact filter_none_of_files_only cand config hf hif
  · cases hid : cand.isDir
    · exact filter_none_of_dirs_only cand config hd hid
    · exact absurd ⟨hif, hid⟩ hx

theorem C8_witness :
    filter_and_score (Candidate.mk ['a'] (some ['a']) false false)
      (Config.mk ['a'] 10 true true CaseSensitivity.Sensitive true) = none :=
  (C8_type_filters (Candidate.mk ['a'] (some ['a']) false false)
      (Config.mk ['a'] 10 true true CaseSensitivity.Sensitive true)).1 rfl rfl

/-- C9: the composition of scoring and ranking is invariant under every
permutation of the candidate sequence, and under the parallel/sequential
policy switch (both branches score candidates independently in input
order), so the final ranked output is deterministic. -/
theorem C9_order_and_parallel_invariance :
    (∀ (cands cands' : List Candidate) (config : Config), cands.Perm cands' →
        score_and_rank cands config = score_and_rank cands' config) ∧
      (∀ (cands : List Candidate) (q : List Char) (n : Nat) (f d : Bool)
          (cs : CaseSensitivity) (par par' : Bool),
        score_and_rank cands (Config.mk q n f d cs par) =
          score_and_rank cands (Config.mk q n f d cs par')) := by
  constructor
  · intro cands cands' config h
    unfold score_and_rank
    simp only [ite_self]
    exact rank_congr_perm (h.filterMap _) config.num
  · intro cands q n f d cs par par'
    unfold score_and_rank
    simp only [ite_self]
    rfl

theorem C9_witness :
    score_and_rank
        [Candidate.mk ['a'] (some ['a']) true false,
          Candidate.mk ['b'] (some ['b']) true false]
        (Config.mk ['a'] 10 false false CaseSensitivity.Sensitive true) =
      score_and_rank
        [Candidate.mk ['b'] (some ['b']) true false,
          Candidate.mk ['a'] (some ['a']) true false]
        (Config.mk ['a'] 10 false false CaseSensitivity.Sensitive true) :=
  C9_order_and_parallel_invariance.1
    [Candidate.mk ['a'] (some ['a']) true false,
      Candidate.mk ['b'] (some ['b']) true false]
    [Candidate.mk ['b'] (some ['b']) true false,
      Candidate.mk ['a'] (some ['a']) true false]
    (Config.mk ['a'] 10 false false CaseSensitivity.Sensitive true)
    (List.Perm.swap (Candidate.mk ['b'] (some ['b']) true false)
      (Candidate.mk ['a'] (some ['a']) true false) [])

/-- C10: scoring a non-empty string against itself yields exactly twice
its length plus the 10000 exact-match boost (and no prefix boost), while
the empty string against itself yields 0. -/
theorem C10_self_match (q : List Char) (h : q ≠ []) :
    fuzzy_score q q = 2 * (q.length : Int) + 10000 ∧
      fuzzy_score ([] : List Char) [] = 0 := by
  refine ⟨?_, rfl⟩
  rw [fuzzy_score_eq q q h h, if_pos rfl, if_neg (by simp), max_score_self q h]
  omega

theorem C10_witness :
    (['a', 'b'] : List Char) ≠ [] ∧
      (fuzzy_score ['a', 'b'] ['a', 'b'] =
          2 * ((['a', 'b'] : List Char).length : Int) + 10000 ∧
        fuzzy_score ([] : List Char) [] = 0) :=
  ⟨by decide, C10_self_match ['a', 'b'] (by decide)⟩
